import Mathlib

/-!  Formal model of the semantic geocoding cache of the Next-Maps backend.
The definitions below are a shallow embedding of `src/backend/utils/distance.ts`
and `src/backend/services/semanticCacheService.ts`; machine floats are modelled
by exact real arithmetic, JS strings by `String`/`List Char` (ASCII model of the
regex classes), and the asynchronous external providers (Nominatim geocoding,
Ollama embeddings) by explicit parameters holding their responses. -/

namespace NextMaps

/-! ## Character classes: ASCII model of the JS regex classes `\s` and `\w` -/

def isSpaceChar (c : Char) : Bool :=
  c == ' ' || c == '\t' || c == '\n' || c == '\r' || c == '\x0b' || c == '\x0c'

/-- JS `\w` is `[A-Za-z0-9_]`: alphanumeric or underscore. -/
def isWordChar (c : Char) : Bool :=
  c.isAlphanum || c == '_'

def wordOrSpace (c : Char) : Bool :=
  isWordChar c || isSpaceChar c

/-- ASCII model of `String.prototype.toLowerCase` (non-ASCII letters are
irrelevant here: they are stripped by the `[^\w\s]` step in both models). -/
def lowerChar : Char → Char
  | 'A' => 'a' | 'B' => 'b' | 'C' => 'c' | 'D' => 'd' | 'E' => 'e' | 'F' => 'f'
  | 'G' => 'g' | 'H' => 'h' | 'I' => 'i' | 'J' => 'j' | 'K' => 'k' | 'L' => 'l'
  | 'M' => 'm' | 'N' => 'n' | 'O' => 'o' | 'P' => 'p' | 'Q' => 'q' | 'R' => 'r'
  | 'S' => 's' | 'T' => 't' | 'U' => 'u' | 'V' => 'v' | 'W' => 'w' | 'X' => 'x'
  | 'Y' => 'y' | 'Z' => 'z'
  | c => c

/-- `String.prototype.trim`: drop trailing then leading whitespace. -/
def trimChars (l : List Char) : List Char :=
  ((l.reverse.dropWhile isSpaceChar).reverse).dropWhile isSpaceChar

/-- `.replace(/\s+/g, ' ')`: collapse each maximal whitespace run to one space. -/
def collapseSpaces : List Char → List Char
  | [] => []
  | [c] => if isSpaceChar c then [' '] else [c]
  | c :: d :: cs =>
    if isSpaceChar c then
      if isSpaceChar d then collapseSpaces (d :: cs)
      else ' ' :: collapseSpaces (d :: cs)
    else c :: collapseSpaces (d :: cs)

/-- Emit an accumulated maximal word-character run, replacing it when it equals
the pattern (this is what `/\bpat\b/g` matches when `pat` is all word chars). -/
def flushRun (pat repl run : List Char) : List Char :=
  if run = pat then repl else run

/-- Scanner for `.replace(/\bpat\b/g, repl)`: `run` accumulates (reversed) the
current maximal word-character run. -/
def replaceWordAux (pat repl : List Char) : List Char → List Char → List Char
  | run, [] => flushRun pat repl run.reverse
  | run, c :: cs =>
    if isWordChar c then replaceWordAux pat repl (c :: run) cs
    else flushRun pat repl run.reverse ++ c :: replaceWordAux pat repl [] cs

def replaceWord (pat repl : String) (l : List Char) : List Char :=
  replaceWordAux pat.data repl.data [] l

/-- `normalizeAddress` from `src/backend/utils/distance.ts`: lowercase, trim,
collapse whitespace, strip `[^\w\s]`, then the five whole-word expansions. -/
def normalizeAddress (address : String) : String :=
  let l1 := address.data.map lowerChar
  let l2 := trimChars l1
  let l3 := collapseSpaces l2
  let l4 := l3.filter wordOrSpace
  let l5 := replaceWord "rd" "road" l4
  let l6 := replaceWord "st" "street" l5
  let l7 := replaceWord "ave" "avenue" l6
  let l8 := replaceWord "mh" "maharashtra" l7
  let l9 := replaceWord "maha" "maharashtra" l8
  String.mk l9

/-! ## Similarity engine (`src/backend/utils/distance.ts`) -/

def dotList (vec1 vec2 : List ℝ) : ℝ := (List.zipWith (fun a b => a * b) vec1 vec2).sum

def sumSq (v : List ℝ) : ℝ := (v.map (fun x => x * x)).sum

noncomputable def magnitude (v : List ℝ) : ℝ := Real.sqrt (sumSq v)

/-- `cosineSimilarity` from the source: 0 on length mismatch, 0 when either
magnitude is 0, otherwise dot product over product of magnitudes. -/
noncomputable def cosineSimilarity (vec1 vec2 : List ℝ) : ℝ :=
  if vec1.length ≠ vec2.length then 0
  else if magnitude vec1 = 0 ∨ magnitude vec2 = 0 then 0
  else dotList vec1 vec2 / (magnitude vec1 * magnitude vec2)

/-- `Math.atan2 y x` as the argument of the complex number `x + y·i`. -/
noncomputable def atan2 (y x : ℝ) : ℝ := Complex.arg ((x : ℂ) + (y : ℂ) * Complex.I)

/-- `haversineDistance` from the source (spherical-earth great-circle formula,
Earth radius 6371e3 meters). -/
noncomputable def haversineDistance (lat1 lng1 lat2 lng2 : ℝ) : ℝ :=
  let R : ℝ := 6371000
  let phi1 := lat1 * Real.pi / 180
  let phi2 := lat2 * Real.pi / 180
  let dphi := (lat2 - lat1) * Real.pi / 180
  let dlam := (lng2 - lng1) * Real.pi / 180
  let a := Real.sin (dphi / 2) * Real.sin (dphi / 2) +
    Real.cos phi1 * Real.cos phi2 * Real.sin (dlam / 2) * Real.sin (dlam / 2)
  let c := 2 * atan2 (Real.sqrt a) (Real.sqrt (1 - a))
  R * c

/-! ## Data model (`src/backend/types.ts`) -/

structure StructuredAddress where
  building : Option String
  street : Option String
  area : Option String
  city : Option String
  state : Option String
  pincode : Option String
  country : Option String

inductive Source where
  | cache
  | api

structure GeocodingResult where
  lat : ℝ
  lng : ℝ
  displayName : String
  structured : StructuredAddress
  source : Source

structure CacheEntry where
  address : String
  normalized : String
  lat : ℝ
  lng : ℝ
  structured : StructuredAddress
  displayName : String
  embedding : List ℝ
  timestamp : ℕ

/-! ## The keyed timed store (`node-cache` instance), modelled as an
association list with the hit/miss counters node-cache maintains. -/

structure NodeCache where
  data : List (String × CacheEntry)
  hits : ℕ
  misses : ℕ

/-- `NodeCache#set`: overwrite the record at the key, or append a new one. -/
def ncSet (nc : NodeCache) (k : String) (v : CacheEntry) : NodeCache :=
  if nc.data.any (fun p => p.1 == k) then
    { nc with data := nc.data.map (fun p => if p.1 == k then (k, v) else p) }
  else
    { nc with data := nc.data ++ [(k, v)] }

/-- `NodeCache#del`. -/
def ncDel (nc : NodeCache) (k : String) : NodeCache :=
  { nc with data := nc.data.filter (fun p => p.1 != k) }

/-- `NodeCache#get`: the only node-cache operation that increments the hit and
miss counters.  The service under verification never calls it. -/
def ncGet (nc : NodeCache) (k : String) : Option CacheEntry × NodeCache :=
  match nc.data.find? (fun p => p.1 == k) with
  | some p => (some p.2, { nc with hits := nc.hits + 1 })
  | none => (none, { nc with misses := nc.misses + 1 })

/-- Pure lookup used in theorem statements (does not model a service call). -/
def lookupKey (nc : NodeCache) (k : String) : Option CacheEntry :=
  (nc.data.find? (fun p => p.1 == k)).map (fun p => p.2)

/-- `NodeCache#flushAll` drops all data and resets the statistics. -/
def ncFlushAll : NodeCache := ⟨[], 0, 0⟩

def ncKeys (nc : NodeCache) : List String := nc.data.map (fun p => p.1)

/-! ## SemanticCacheService state and operations -/

structure CacheState where
  cache : NodeCache
  cacheEntries : List CacheEntry

def initialState : CacheState := ⟨⟨[], 0, 0⟩, []⟩

noncomputable def SIMILARITY_THRESHOLD : ℝ := 0.85

def DISTANCE_THRESHOLD : ℝ := 500

/-- One iteration of the `findSimilar` loop: `acc` is the pair
(`bestMatch`, `bestScore`). -/
noncomputable def simStep (queryEmbedding : List ℝ) (acc : Option CacheEntry × ℝ)
    (entry : CacheEntry) : Option CacheEntry × ℝ :=
  let similarity := cosineSimilarity queryEmbedding entry.embedding
  if similarity > SIMILARITY_THRESHOLD then
    match acc.1 with
    | some bestMatch =>
      let distance := haversineDistance entry.lat entry.lng bestMatch.lat bestMatch.lng
      if distance < DISTANCE_THRESHOLD ∧ similarity > acc.2 then (some entry, similarity)
      else acc
    | none => (some entry, similarity)
  else acc

/-- `findSimilar` from the source: scan `cacheEntries` in order, starting from
`bestMatch = null`, `bestScore = 0`. -/
noncomputable def findSimilar (normalizedAddress : String) (queryEmbedding : List ℝ)
    (entries : List CacheEntry) : Option CacheEntry :=
  (entries.foldl (simStep queryEmbedding) ((none : Option CacheEntry), (0 : ℝ))).1

/-- `findNearby` from the source: first entry strictly within `radiusMeters`. -/
noncomputable def findNearby (entries : List CacheEntry) (lat lng radiusMeters : ℝ) :
    Option CacheEntry :=
  match entries with
  | [] => none
  | entry :: rest =>
    if haversineDistance lat lng entry.lat entry.lng < radiusMeters then some entry
    else findNearby rest lat lng radiusMeters

def mkCacheEntry (address normalized : String) (result : GeocodingResult)
    (embedding : List ℝ) (now : ℕ) : CacheEntry :=
  ⟨address, normalized, result.lat, result.lng, result.structured,
   result.displayName, embedding, now⟩

/-- `store` from the source: `cache.set`, push, then if the ordered list
exceeds 1000 entries, `shift()` it and `cache.del` the shifted entry's key. -/
def store (s : CacheState) (address normalized : String) (result : GeocodingResult)
    (embedding : List ℝ) (now : ℕ) : CacheState :=
  let cacheEntry := mkCacheEntry address normalized result embedding now
  let key := "geo:" ++ normalized
  let cache1 := ncSet s.cache key cacheEntry
  let entries1 := s.cacheEntries ++ [cacheEntry]
  if entries1.length > 1000 then
    match entries1.head? with
    | some removed => ⟨ncDel cache1 ("geo:" ++ removed.normalized), entries1.tail⟩
    | none => ⟨cache1, entries1.tail⟩
  else ⟨cache1, entries1⟩

def entryResult (e : CacheEntry) : GeocodingResult :=
  ⟨e.lat, e.lng, e.displayName, e.structured, Source.cache⟩

/-- `geocodeWithCache`: `gen` is the (deterministic) embedding provider and
`geo` the geocoding provider's response for this address (`none` = no result
or failure). -/
noncomputable def geocodeWithCache (s : CacheState) (address : String)
    (gen : String → List ℝ) (geo : Option GeocodingResult) (now : ℕ) :
    Option GeocodingResult × CacheState :=
  let normalized := normalizeAddress address
  let queryEmbedding := gen normalized
  match findSimilar normalized queryEmbedding s.cacheEntries with
  | some cachedResult => (some (entryResult cachedResult), s)
  | none =>
    match geo with
    | some result => (some result, store s address normalized result queryEmbedding now)
    | none => (none, s)

/-- `reverseGeocodeWithCache`: proximity lookup with a fixed 100 m radius, on a
miss the reverse-geocoding response `geo` is stored (when present). -/
noncomputable def reverseGeocodeWithCache (s : CacheState) (lat lng : ℝ)
    (gen : String → List ℝ) (geo : Option GeocodingResult) (now : ℕ) :
    Option GeocodingResult × CacheState :=
  match findNearby s.cacheEntries lat lng 100 with
  | some nearby => (some (entryResult nearby), s)
  | none =>
    match geo with
    | some result =>
      (some result,
       store s result.displayName (normalizeAddress result.displayName) result
         (gen (normalizeAddress result.displayName)) now)
    | none => (none, s)

structure Stats where
  entries : ℕ
  keys : ℕ
  hits : ℕ
  misses : ℕ

def getStats (s : CacheState) : Stats :=
  ⟨s.cacheEntries.length, (ncKeys s.cache).length, s.cache.hits, s.cache.misses⟩

def clear (_s : CacheState) : CacheState := ⟨ncFlushAll, []⟩

/-- States reachable through the public operations of the service. -/
inductive Reachable : CacheState → Prop
  | init : Reachable initialState
  | geocode (s : CacheState) (address : String) (gen : String → List ℝ)
      (geo : Option GeocodingResult) (now : ℕ) :
      Reachable s → Reachable (geocodeWithCache s address gen geo now).2
  | reverse (s : CacheState) (lat lng : ℝ) (gen : String → List ℝ)
      (geo : Option GeocodingResult) (now : ℕ) :
      Reachable s → Reachable (reverseGeocodeWithCache s lat lng gen geo now).2
  | clearStep (s : CacheState) : Reachable s → Reachable (clear s)

/-! ## Spec-side definitions (for refinement claims) -/

/-- Modelled from the spec's selection policy for the forward match: the first
candidate becomes the provisional best unconditionally; a later candidate
replaces it only if its similarity exceeds the provisional best's similarity
and its distance to the current provisional best is under the threshold. -/
noncomputable def findSimilarSpecGo (q : List ℝ) :
    Option CacheEntry → List CacheEntry → Option CacheEntry
  | best, [] => best
  | none, e :: rest =>
    if cosineSimilarity q e.embedding > SIMILARITY_THRESHOLD then
      findSimilarSpecGo q (some e) rest
    else findSimilarSpecGo q none rest
  | some b, e :: rest =>
    if cosineSimilarity q e.embedding > SIMILARITY_THRESHOLD ∧
        cosineSimilarity q e.embedding > cosineSimilarity q b.embedding ∧
        haversineDistance e.lat e.lng b.lat b.lng < DISTANCE_THRESHOLD then
      findSimilarSpecGo q (some e) rest
    else findSimilarSpecGo q (some b) rest

noncomputable def findSimilarSpec (q : List ℝ) (entries : List CacheEntry) :
    Option CacheEntry :=
  findSimilarSpecGo q none entries

/-- Equality of cache entries up to the `timestamp` field. -/
def eqModTime (a b : CacheEntry) : Prop :=
  a.address = b.address ∧ a.normalized = b.normalized ∧ a.lat = b.lat ∧
  a.lng = b.lng ∧ a.structured = b.structured ∧ a.displayName = b.displayName ∧
  a.embedding = b.embedding

def optRel (r : CacheEntry → CacheEntry → Prop) :
    Option CacheEntry → Option CacheEntry → Prop
  | none, none => True
  | some a, some b => r a b
  | _, _ => False

/-- One insertion request (the data `store` is called with). -/
structure StoreReq where
  address : String
  normalized : String
  result : GeocodingResult
  embedding : List ℝ
  now : ℕ

def applyStore (s : CacheState) (r : StoreReq) : CacheState :=
  store s r.address r.normalized r.result r.embedding r.now

def applyStores (s : CacheState) (rs : List StoreReq) : CacheState :=
  rs.foldl applyStore s

def reqEntry (r : StoreReq) : CacheEntry :=
  mkCacheEntry r.address r.normalized r.result r.embedding r.now

/-! ## Token view of normalized strings (for the normalizer proofs) -/

def joinTokens (ts : List (List Char)) : List Char :=
  (List.intersperse [' '] ts).flatten

def GoodTokens (ts : List (List Char)) : Prop :=
  ∀ t ∈ ts, t ≠ [] ∧ ∀ c ∈ t, isWordChar c = true

/-- The per-token effect of the five sequential whole-word replacements. -/
def tokenMap (t : List Char) : List Char :=
  flushRun "maha".data "maharashtra".data
    (flushRun "mh".data "maharashtra".data
      (flushRun "ave".data "avenue".data
        (flushRun "st".data "street".data
          (flushRun "rd".data "road".data t))))

def headNotSpace : List Char → Bool
  | [] => true
  | c :: _ => !(isSpaceChar c)

def lastNotSpace : List Char → Bool
  | [] => true
  | [c] => !(isSpaceChar c)
  | _ :: d :: cs => lastNotSpace (d :: cs)

/-! ## Concrete data for counterexamples and witnesses -/

def someStructured : StructuredAddress := ⟨none, none, none, none, none, none, none⟩

def resultAt (lat lng : ℝ) : GeocodingResult :=
  ⟨lat, lng, "somewhere", someStructured, Source.api⟩

/-- An entry whose normalized key is `"a"`, inserted first (the evictee). -/
def entryA1 : CacheEntry := ⟨"a", "a", 1, 2, someStructured, "A one", [1], 0⟩

/-- A newer, distinct entry sharing the normalized key `"a"`. -/
def entryA2 : CacheEntry := ⟨"a!", "a", 3, 4, someStructured, "A two", [1], 5⟩

/-- Filler entry with an unrelated key. -/
def fillerEntry : CacheEntry := ⟨"fill", "fill", 0, 0, someStructured, "fill", [1], 1⟩

/-- A full (1000-entry) cache state in which the oldest entry and a newer
surviving entry share the normalized key `"a"`; the keyed store currently maps
`geo:a` to the newer one, as after the corresponding insertion sequence. -/
def dupKeyState : CacheState :=
  ⟨⟨[("geo:a", entryA2), ("geo:fill", fillerEntry)], 0, 0⟩,
   entryA1 :: entryA2 :: List.replicate 998 fillerEntry⟩

/-- The five sequential whole-word replacements of `normalizeAddress`. -/
def replaceAll (l : List Char) : List Char :=
  replaceWord "maha" "maharashtra"
    (replaceWord "mh" "maharashtra"
      (replaceWord "ave" "avenue"
        (replaceWord "st" "street" (replaceWord "rd" "road" l))))

/-! # Theorems -/

/-! ## Generic lemmas about the scanner `replaceWordAux` -/

theorem mem_flushRun {pat repl run : List Char} {c : Char} (h : c ∈ flushRun pat repl run) :
    c ∈ repl ∨ c ∈ run := by
  unfold flushRun at h
  split at h
  · exact Or.inl h
  · exact Or.inr h

theorem mem_replaceWordAux {pat repl : List Char} :
    ∀ (l run : List Char) (c : Char), c ∈ replaceWordAux pat repl run l →
      c ∈ run ∨ c ∈ repl ∨ c ∈ l := by
  intro l
  induction l with
  | nil =>
    intro run c h
    unfold replaceWordAux at h
    rcases mem_flushRun h with h1 | h1
    · exact Or.inr (Or.inl h1)
    · exact Or.inl (List.mem_reverse.mp h1)
  | cons a l ih =>
    intro run c h
    unfold replaceWordAux at h
    split at h
    · rcases ih (a :: run) c h with h1 | h1 | h1
      · rcases List.mem_cons.mp h1 with h2 | h2
        · exact Or.inr (Or.inr (h2 ▸ List.mem_cons_self a l))
        · exact Or.inl h2
      · exact Or.inr (Or.inl h1)
      · exact Or.inr (Or.inr (List.mem_cons_of_mem a h1))
    · rcases List.mem_append.mp h with h1 | h1
      · rcases mem_flushRun h1 with h2 | h2
        · exact Or.inr (Or.inl h2)
        · exact Or.inl (List.mem_reverse.mp h2)
      · rcases List.mem_cons.mp h1 with h2 | h2
        · exact Or.inr (Or.inr (h2 ▸ List.mem_cons_self a l))
        · rcases ih [] c h2 with h3 | h3 | h3
          · cases h3
          · exact Or.inr (Or.inl h3)
          · exact Or.inr (Or.inr (List.mem_cons_of_mem a h3))

theorem mem_replaceWord {pat repl : String} {l : List Char} {c : Char}
    (h : c ∈ replaceWord pat repl l) : c ∈ repl.data ∨ c ∈ l := by
  rcases mem_replaceWordAux l [] c h with h1 | h1 | h1
  · cases h1
  · exact Or.inl h1
  · exact Or.inr h1

/-! ## Claim C5 -/

/-- Claim C5 counterexample: on input `"_"` the normalizer returns `"_"`, a
string containing a character that is neither alphanumeric nor whitespace, so
the output does not consist only of alphanumerics and whitespace. -/
theorem normalize_keeps_underscore_cex :
    normalizeAddress "_" = "_" ∧ (Char.isAlphanum '_' || isSpaceChar '_') = false := by
  constructor
  · rfl
  · decide

theorem word_chars_road : ∀ c ∈ "road".data, wordOrSpace c = true := by decide

theorem word_chars_street : ∀ c ∈ "street".data, wordOrSpace c = true := by decide

theorem word_chars_avenue : ∀ c ∈ "avenue".data, wordOrSpace c = true := by decide

theorem word_chars_maharashtra : ∀ c ∈ "maharashtra".data, wordOrSpace c = true := by
  decide

/-- Claim C5 (amended): every character of the normalizer's output is a word
character (alphanumeric or underscore, JS `\w`) or whitespace; step 4 removes
every character outside `\w` and `\s`, so underscores survive. -/
theorem normalizeAddress_chars_wordOrSpace (s : String) :
    (normalizeAddress s).data.all wordOrSpace = true := by
  rw [List.all_eq_true]
  intro c hc
  unfold normalizeAddress at hc
  simp only [String.data] at hc
  rcases mem_replaceWord hc with h | h
  · exact word_chars_maharashtra c h
  rcases mem_replaceWord h with h | h
  · exact word_chars_maharashtra c h
  rcases mem_replaceWord h with h | h
  · exact word_chars_avenue c h
  rcases mem_replaceWord h with h | h
  · exact word_chars_street c h
  rcases mem_replaceWord h with h | h
  · exact word_chars_road c h
  · exact (List.mem_filter.mp h).2

/-! ## Claim C2 -/

/-- The ordered-sequence component of one `store`. -/
theorem store_cacheEntries (s : CacheState) (a n : String) (res : GeocodingResult)
    (emb : List ℝ) (now : ℕ) :
    (store s a n res emb now).cacheEntries =
      if (s.cacheEntries ++ [mkCacheEntry a n res emb now]).length > 1000 then
        (s.cacheEntries ++ [mkCacheEntry a n res emb now]).tail
      else s.cacheEntries ++ [mkCacheEntry a n res emb now] := by
  unfold store
  dsimp only
  split
  · split <;> rfl
  · rfl

theorem applyStores_entries :
    ∀ (rs : List StoreReq) (s : CacheState), s.cacheEntries.length ≤ 1000 →
      (applyStores s rs).cacheEntries =
        (s.cacheEntries ++ rs.map reqEntry).drop
          ((s.cacheEntries ++ rs.map reqEntry).length - 1000) := by
  intro rs
  induction rs with
  | nil =>
    intro s hs
    simp only [applyStores, List.foldl_nil, List.map_nil, List.append_nil]
    rw [Nat.sub_eq_zero_of_le hs, List.drop_zero]
  | cons r rs ih =>
    intro s hs
    have hstep : applyStores s (r :: rs) = applyStores (applyStore s r) rs := by
      simp [applyStores]
    rw [hstep]
    have hentry : (applyStore s r).cacheEntries =
        if (s.cacheEntries ++ [reqEntry r]).length > 1000 then
          (s.cacheEntries ++ [reqEntry r]).tail
        else s.cacheEntries ++ [reqEntry r] := store_cacheEntries s _ _ _ _ _
    by_cases hlen : (s.cacheEntries ++ [reqEntry r]).length > 1000
    · -- the new entry pushed the list over capacity: the head is evicted
      have hne : s.cacheEntries ≠ [] := by
        intro hnil
        rw [hnil] at hlen
        simp at hlen
      obtain ⟨c, l, hcl⟩ := List.exists_cons_of_ne_nil hne
      have h1000 : s.cacheEntries.length = 1000 := by
        simp only [List.length_append, List.length_singleton] at hlen
        omega
      have hll : l.length = 999 := by
        rw [hcl] at h1000
        simp only [List.length_cons] at h1000
        omega
      have htl : (applyStore s r).cacheEntries = l ++ [reqEntry r] := by
        rw [hentry, if_pos hlen, hcl]
        simp
      have hlenl : (applyStore s r).cacheEntries.length ≤ 1000 := by
        rw [htl]
        simp only [List.length_append, List.length_singleton, hll]
        omega
      rw [ih _ hlenl, htl]
      have hlist : s.cacheEntries ++ List.map reqEntry (r :: rs) =
          c :: (l ++ [reqEntry r] ++ List.map reqEntry rs) := by
        rw [hcl]; simp
      rw [hlist]
      have hlen2 : (c :: (l ++ [reqEntry r] ++ List.map reqEntry rs)).length - 1000 =
          ((l ++ [reqEntry r] ++ List.map reqEntry rs).length - 1000) + 1 := by
        simp only [List.length_cons, List.length_append, List.length_singleton,
          List.length_map, hll]
        omega
      rw [hlen2, List.drop_succ_cons]
    · have htl : (applyStore s r).cacheEntries = s.cacheEntries ++ [reqEntry r] := by
        rw [hentry, if_neg hlen]
      have hlenl : (applyStore s r).cacheEntries.length ≤ 1000 := by
        rw [htl]; omega
      rw [ih _ hlenl, htl, List.map_cons]
      have hl2 : s.cacheEntries ++ [reqEntry r] ++ List.map reqEntry rs =
          s.cacheEntries ++ reqEntry r :: List.map reqEntry rs := by
        simp
      rw [hl2]

/-! ## Claim C9: keyed-store lemmas -/

theorem find?_cons_true {α : Type} (p : α → Bool) (a : α) (l : List α) (h : p a = true) :
    (a :: l).find? p = some a := by
  rw [List.find?_cons, h]

theorem find?_cons_false {α : Type} (p : α → Bool) (a : α) (l : List α) (h : p a = false) :
    (a :: l).find? p = l.find? p := by
  rw [List.find?_cons, h]

theorem find?_filter_ne (k k2 : String) (h : k ≠ k2) :
    ∀ l : List (String × CacheEntry),
      (l.filter (fun p => p.1 != k2)).find? (fun p => p.1 == k) =
        l.find? (fun p => p.1 == k) := by
  intro l
  induction l with
  | nil => rfl
  | cons p l ih =>
    by_cases hk : p.1 = k
    · have h2 : (p.1 != k2) = true := by simp [bne_iff_ne, hk, h]
      have h3 : (p.1 == k) = true := by simp [hk]
      rw [List.filter_cons, if_pos h2, find?_cons_true (fun q => q.1 == k) p _ h3,
        find?_cons_true (fun q => q.1 == k) p _ h3]
    · by_cases hk2 : p.1 = k2
      · have h2 : ¬ (p.1 != k2) = true := by simp [bne_iff_ne, hk2]
        have h3 : (p.1 == k) = false := by simp [hk]
        rw [List.filter_cons, if_neg h2, ih, find?_cons_false (fun q => q.1 == k) p _ h3]
      · have h2 : (p.1 != k2) = true := by simp [bne_iff_ne, hk2]
        have h3 : (p.1 == k) = false := by simp [hk]
        rw [List.filter_cons, if_pos h2, find?_cons_false (fun q => q.1 == k) p _ h3,
          find?_cons_false (fun q => q.1 == k) p _ h3, ih]

theorem lookupKey_ncDel_self (nc : NodeCache) (k : String) :
    lookupKey (ncDel nc k) k = none := by
  unfold lookupKey ncDel
  dsimp only
  rw [List.find?_eq_none.mpr]
  · rfl
  · intro p hp
    have := (List.mem_filter.mp hp).2
    simp only [bne_iff_ne, ne_eq, decide_eq_true_eq] at this
    simp [this]

theorem lookupKey_ncDel_other (nc : NodeCache) (k k2 : String) (h : k ≠ k2) :
    lookupKey (ncDel nc k2) k = lookupKey nc k := by
  unfold lookupKey ncDel
  dsimp only
  rw [find?_filter_ne k k2 h]

theorem lookupKey_ncSet_other (nc : NodeCache) (k k2 : String) (v : CacheEntry)
    (h : k ≠ k2) : lookupKey (ncSet nc k2 v) k = lookupKey nc k := by
  unfold lookupKey ncSet
  split
  · dsimp only
    congr 1
    induction nc.data with
    | nil => rfl
    | cons p l ih =>
      by_cases hk2 : p.1 = k2
      · rw [List.map_cons, if_pos (by simp [hk2] : (p.1 == k2) = true),
          find?_cons_false (fun q => q.1 == k) (k2, v) _ (by simp [Ne.symm h]),
          find?_cons_false (fun q => q.1 == k) p _ (by simp [hk2, Ne.symm h]), ih]
      · rw [List.map_cons, if_neg (by simp [hk2] : ¬ (p.1 == k2) = true)]
        by_cases hk : p.1 = k
        · rw [find?_cons_true (fun q => q.1 == k) p _ (by simp [hk]),
            find?_cons_true (fun q => q.1 == k) p _ (by simp [hk])]
        · rw [find?_cons_false (fun q => q.1 == k) p _ (by simp [hk]),
            find?_cons_false (fun q => q.1 == k) p _ (by simp [hk]), ih]
  · dsimp only
    congr 1
    induction nc.data with
    | nil => simp [Ne.symm h]
    | cons p l ih =>
      rw [List.cons_append]
      by_cases hk : p.1 = k
      · rw [find?_cons_true (fun q => q.1 == k) p _ (by simp [hk]),
          find?_cons_true (fun q => q.1 == k) p _ (by simp [hk])]
      · rw [find?_cons_false (fun q => q.1 == k) p _ (by simp [hk]),
          find?_cons_false (fun q => q.1 == k) p _ (by simp [hk]), ih]

theorem head?_append_of_ne_nil {α : Type} (l l2 : List α) (h : l ≠ []) :
    (l ++ l2).head? = l.head? := by
  cases l with
  | nil => exact absurd rfl h
  | cons a l => rfl

theorem tail_append_of_ne_nil {α : Type} (l l2 : List α) (h : l ≠ []) :
    (l ++ l2).tail = l.tail ++ l2 := by
  cases l with
  | nil => exact absurd rfl h
  | cons a l => rfl

/-- The full effect of a `store` on a cache at capacity whose oldest entry is
`r`: the head of the ordered sequence is shifted off, the new entry is
appended, and the keyed store gets the new record and then loses the key
`geo:<r.normalized>`. -/
theorem store_at_capacity (s : CacheState) (a n : String) (res : GeocodingResult)
    (emb : List ℝ) (now : ℕ) (r : CacheEntry)
    (hlen : s.cacheEntries.length = 1000) (hr : s.cacheEntries.head? = some r) :
    store s a n res emb now =
      ⟨ncDel (ncSet s.cache ("geo:" ++ n) (mkCacheEntry a n res emb now))
          ("geo:" ++ r.normalized),
        s.cacheEntries.tail ++ [mkCacheEntry a n res emb now]⟩ := by
  have hne : s.cacheEntries ≠ [] := by
    intro hnil
    rw [hnil] at hlen
    simp at hlen
  have hlen1 : (s.cacheEntries ++ [mkCacheEntry a n res emb now]).length > 1000 := by
    simp only [List.length_append, List.length_singleton, hlen]
    omega
  have hhead : (s.cacheEntries ++ [mkCacheEntry a n res emb now]).head? = some r := by
    rw [head?_append_of_ne_nil _ _ hne, hr]
  unfold store
  dsimp only
  rw [if_pos hlen1, hhead, tail_append_of_ne_nil _ _ hne]

/-- Claim C9 (amended): at capacity, `store` drops the index-0 entry from the
ordered sequence (all other ordered-sequence records unchanged), removes the
key `geo:<evictee.normalizedKey>` from the keyed store, and leaves every keyed
record unchanged whose key differs from both the evictee's key and the new
entry's key.  (The evictee's key is deleted even when a surviving duplicate
entry still carries that normalized key.) -/
theorem store_evict_frame (s : CacheState) (a n : String) (res : GeocodingResult)
    (emb : List ℝ) (now : ℕ) (r : CacheEntry)
    (hlen : s.cacheEntries.length = 1000) (hr : s.cacheEntries.head? = some r) :
    (store s a n res emb now).cacheEntries =
      s.cacheEntries.tail ++ [mkCacheEntry a n res emb now] ∧
    lookupKey (store s a n res emb now).cache ("geo:" ++ r.normalized) = none ∧
    ∀ k, k ≠ "geo:" ++ n → k ≠ "geo:" ++ r.normalized →
      lookupKey (store s a n res emb now).cache k = lookupKey s.cache k := by
  rw [store_at_capacity s a n res emb now r hlen hr]
  refine ⟨rfl, lookupKey_ncDel_self _ _, ?_⟩
  intro k hk1 hk2
  rw [lookupKey_ncDel_other _ _ _ hk2, lookupKey_ncSet_other _ _ _ _ hk1]

set_option maxRecDepth 100000 in
/-- Witness for the amended claim C9 at a concrete 1000-entry state. -/
theorem store_evict_frame_witness :
    lookupKey
      (store ⟨⟨[], 0, 0⟩, entryA1 :: List.replicate 999 fillerEntry⟩ "a" "a"
        (resultAt 1 2) [1] 9).cache ("geo:" ++ entryA1.normalized) = none := by
  exact (store_evict_frame ⟨⟨[], 0, 0⟩, entryA1 :: List.replicate 999 fillerEntry⟩
    "a" "a" (resultAt 1 2) [1] 9 entryA1 (by simp) rfl).2.1

set_option maxRecDepth 100000 in
/-- Claim C9 counterexample: in a full cache where the evicted oldest entry
shares its normalized key `"a"` with the newer surviving entry `entryA2`
(which the keyed store maps `geo:a` to), inserting a fresh entry evicts the
oldest entry and deletes `geo:a` — so the surviving entry `entryA2`'s keyed
record is changed (deleted), contradicting the claim that every surviving
entry's keyed-store record is left unchanged. -/
theorem store_evict_shared_key_cex :
    lookupKey dupKeyState.cache "geo:a" = some entryA2 ∧
    (store dupKeyState "x" "b" (resultAt 5 6) [1] 7).cacheEntries.head? = some entryA2 ∧
    lookupKey (store dupKeyState "x" "b" (resultAt 5 6) [1] 7).cache "geo:a" = none := by
  refine ⟨rfl, ?_, ?_⟩ <;> rfl

/-- Claim C2: starting from the empty cache, any sequence of `store` calls
leaves at most 1000 live entries, and the surviving ordered sequence is exactly
the suffix of the inserted entries past the first `k − 1000` (FIFO: each
eviction removes the oldest surviving insertion; after 1001 sequential
insertions entry #1 is gone and entries #2–#1001 remain). -/
theorem store_capacity_fifo (rs : List StoreReq) :
    (applyStores initialState rs).cacheEntries.length ≤ 1000 ∧
    (applyStores initialState rs).cacheEntries =
      (rs.map reqEntry).drop (rs.length - 1000) := by
  have h := applyStores_entries rs initialState (by simp [initialState])
  have hinit : initialState.cacheEntries = [] := rfl
  rw [hinit, List.nil_append] at h
  constructor
  · rw [h, List.length_drop]
    omega
  · rw [h, List.length_map]

/-! ## Claim C10: the hit/miss counters are never incremented -/

theorem ncSet_hits (nc : NodeCache) (k : String) (v : CacheEntry) :
    (ncSet nc k v).hits = nc.hits ∧ (ncSet nc k v).misses = nc.misses := by
  unfold ncSet
  split <;> exact ⟨rfl, rfl⟩

theorem ncDel_hits (nc : NodeCache) (k : String) :
    (ncDel nc k).hits = nc.hits ∧ (ncDel nc k).misses = nc.misses := ⟨rfl, rfl⟩

theorem store_hits (s : CacheState) (a n : String) (res : GeocodingResult)
    (emb : List ℝ) (now : ℕ) :
    (store s a n res emb now).cache.hits = s.cache.hits ∧
    (store s a n res emb now).cache.misses = s.cache.misses := by
  unfold store
  dsimp only
  split
  · split
    · exact ⟨(ncSet_hits s.cache _ _).1, (ncSet_hits s.cache _ _).2⟩
    · exact ncSet_hits s.cache _ _
  · exact ncSet_hits s.cache _ _

theorem geocodeWithCache_hits (s : CacheState) (address : String)
    (gen : String → List ℝ) (geo : Option GeocodingResult) (now : ℕ) :
    (geocodeWithCache s address gen geo now).2.cache.hits = s.cache.hits ∧
    (geocodeWithCache s address gen geo now).2.cache.misses = s.cache.misses := by
  unfold geocodeWithCache
  dsimp only
  split
  · exact ⟨rfl, rfl⟩
  · split
    · exact store_hits s _ _ _ _ _
    · exact ⟨rfl, rfl⟩

theorem reverseGeocodeWithCache_hits (s : CacheState) (lat lng : ℝ)
    (gen : String → List ℝ) (geo : Option GeocodingResult) (now : ℕ) :
    (reverseGeocodeWithCache s lat lng gen geo now).2.cache.hits = s.cache.hits ∧
    (reverseGeocodeWithCache s lat lng gen geo now).2.cache.misses = s.cache.misses := by
  unfold reverseGeocodeWithCache
  split
  · exact ⟨rfl, rfl⟩
  · split
    · exact store_hits s _ _ _ _ _
    · exact ⟨rfl, rfl⟩

/-- Claim C10: in every state reachable through the public operations, the hit
and miss counters reported by `getStats` are 0 — no operation ever performs a
keyed-store lookup (`ncGet`), the only node-cache operation that increments
them. -/
theorem reachable_stats_zero (s : CacheState) (h : Reachable s) :
    (getStats s).hits = 0 ∧ (getStats s).misses = 0 := by
  induction h with
  | init => exact ⟨rfl, rfl⟩
  | geocode s address gen geo now _ ih =>
    have hp := geocodeWithCache_hits s address gen geo now
    exact ⟨hp.1.trans ih.1, hp.2.trans ih.2⟩
  | reverse s lat lng gen geo now _ ih =>
    have hp := reverseGeocodeWithCache_hits s lat lng gen geo now
    exact ⟨hp.1.trans ih.1, hp.2.trans ih.2⟩
  | clearStep s _ _ => exact ⟨rfl, rfl⟩

/-- Witness for claim C10 at the initial state. -/
theorem reachable_stats_zero_witness :
    (getStats initialState).hits = 0 ∧ (getStats initialState).misses = 0 :=
  reachable_stats_zero initialState Reachable.init

/-! ## Claim C7: provider miss stores nothing and returns a miss -/

/-- Claim C7: when the external provider returns no result on a cache miss
(`findSimilar` resp. `findNearby` returned `none`), the operation returns
`none` and the state — both the ordered sequence and the keyed store — is
completely unchanged; no partial entry is ever stored. -/
theorem provider_miss_no_store (s : CacheState) (address : String)
    (gen : String → List ℝ) (now : ℕ) (lat lng : ℝ) :
    (findSimilar (normalizeAddress address) (gen (normalizeAddress address))
        s.cacheEntries = none →
      geocodeWithCache s address gen none now = (none, s)) ∧
    (findNearby s.cacheEntries lat lng 100 = none →
      reverseGeocodeWithCache s lat lng gen none now = (none, s)) := by
  constructor
  · intro hmiss
    unfold geocodeWithCache
    dsimp only
    rw [hmiss]
  · intro hmiss
    unfold reverseGeocodeWithCache
    rw [hmiss]

/-- Witness for claim C7 on the empty cache (both scans return `none` there). -/
theorem provider_miss_no_store_witness :
    geocodeWithCache initialState "x" (fun _ => []) none 0 = (none, initialState) ∧
    reverseGeocodeWithCache initialState 1 2 (fun _ => []) none 0 = (none, initialState) :=
  ⟨(provider_miss_no_store initialState "x" (fun _ => []) 0 1 2).1 rfl,
   (provider_miss_no_store initialState "x" (fun _ => []) 0 1 2).2 rfl⟩

/-! ## Claim C3: findNearby is a first-match linear scan -/

theorem findNearby_cons (e : CacheEntry) (es : List CacheEntry) (lat lng r : ℝ) :
    findNearby (e :: es) lat lng r =
      if haversineDistance lat lng e.lat e.lng < r then some e
      else findNearby es lat lng r := rfl

theorem findNearby_eq_none_iff (entries : List CacheEntry) (lat lng r : ℝ) :
    findNearby entries lat lng r = none ↔
      ∀ e ∈ entries, ¬ haversineDistance lat lng e.lat e.lng < r := by
  induction entries with
  | nil => simp [findNearby]
  | cons a es ih =>
    rw [findNearby_cons]
    by_cases hd : haversineDistance lat lng a.lat a.lng < r
    · rw [if_pos hd]
      constructor
      · intro hsome; exact absurd hsome (by simp)
      · intro hall; exact ((hall a (List.mem_cons_self a es)) hd).elim
    · rw [if_neg hd, ih, List.forall_mem_cons]
      simp [hd]

theorem findNearby_eq_some_iff (entries : List CacheEntry) (lat lng r : ℝ) :
    ∀ e : CacheEntry,
      findNearby entries lat lng r = some e ↔
        ∃ i, ∃ hi : i < entries.length, entries.get ⟨i, hi⟩ = e ∧
          haversineDistance lat lng e.lat e.lng < r ∧
          ∀ p ∈ entries.take i, ¬ haversineDistance lat lng p.lat p.lng < r := by
  induction entries with
  | nil =>
    intro e
    constructor
    · intro h; cases h
    · rintro ⟨i, hi, _⟩
      simp at hi
  | cons a es ih =>
    intro e
    rw [findNearby_cons]
    by_cases hd : haversineDistance lat lng a.lat a.lng < r
    · rw [if_pos hd]
      constructor
      · intro hsome
        have hae : a = e := Option.some_inj.mp hsome
        exact ⟨0, by simp, hae, hae ▸ hd, by simp⟩
      · rintro ⟨i, hi, hget, hdist, hfirst⟩
        cases i with
        | zero => exact congrArg some hget
        | succ i2 =>
          exact absurd hd (hfirst a (by rw [List.take_succ_cons]; exact List.mem_cons_self _ _))
    · rw [if_neg hd, ih e]
      constructor
      · rintro ⟨i, hi, hget, hdist, hfirst⟩
        refine ⟨i + 1, by simpa using Nat.succ_lt_succ hi, hget, hdist, ?_⟩
        intro p hp
        rw [List.take_succ_cons] at hp
        rcases List.mem_cons.mp hp with hpa | hpt
        · exact hpa ▸ hd
        · exact hfirst p hpt
      · rintro ⟨i, hi, hget, hdist, hfirst⟩
        cases i with
        | zero => exact absurd ((show a = e from hget) ▸ hdist) hd
        | succ i2 =>
          have hi2 : i2 < es.length := by simpa using hi
          refine ⟨i2, hi2, hget, hdist, ?_⟩
          intro p hp
          exact hfirst p (by rw [List.take_succ_cons]; exact List.mem_cons_of_mem a hp)

/-- Claim C3: `findNearby` scans in insertion order and returns the first
entry whose great-circle distance to the query point is strictly below the
radius (`none` when no entry is that close) — first match, not closest match —
and the reverse-geocode path consults it with a fixed 100 m radius. -/
theorem findNearby_first_match (entries : List CacheEntry) (lat lng radiusMeters : ℝ) :
    (findNearby entries lat lng radiusMeters = none ↔
      ∀ e ∈ entries, ¬ haversineDistance lat lng e.lat e.lng < radiusMeters) ∧
    (∀ e, findNearby entries lat lng radiusMeters = some e ↔
      ∃ i, ∃ hi : i < entries.length, entries.get ⟨i, hi⟩ = e ∧
        haversineDistance lat lng e.lat e.lng < radiusMeters ∧
        ∀ p ∈ entries.take i, ¬ haversineDistance lat lng p.lat p.lng < radiusMeters) ∧
    (∀ (s : CacheState) (gen : String → List ℝ) (geo : Option GeocodingResult) (now : ℕ),
      (reverseGeocodeWithCache s lat lng gen geo now).1 =
        match findNearby s.cacheEntries lat lng 100 with
        | some nearby => some (entryResult nearby)
        | none => geo) := by
  refine ⟨findNearby_eq_none_iff entries lat lng radiusMeters,
    findNearby_eq_some_iff entries lat lng radiusMeters, ?_⟩
  intro s gen geo now
  unfold reverseGeocodeWithCache
  cases hc : findNearby s.cacheEntries lat lng 100 with
  | none =>
    cases geo with
    | none => rfl
    | some g => rfl
  | some nearby => rfl

/-! ## Claim C1: the forward-match selection policy -/

theorem specGo_none_cons (q : List ℝ) (e : CacheEntry) (rest : List CacheEntry) :
    findSimilarSpecGo q none (e :: rest) =
      if cosineSimilarity q e.embedding > SIMILARITY_THRESHOLD then
        findSimilarSpecGo q (some e) rest
      else findSimilarSpecGo q none rest := rfl

theorem specGo_some_cons (q : List ℝ) (b e : CacheEntry) (rest : List CacheEntry) :
    findSimilarSpecGo q (some b) (e :: rest) =
      if cosineSimilarity q e.embedding > SIMILARITY_THRESHOLD ∧
          cosineSimilarity q e.embedding > cosineSimilarity q b.embedding ∧
          haversineDistance e.lat e.lng b.lat b.lng < DISTANCE_THRESHOLD then
        findSimilarSpecGo q (some e) rest
      else findSimilarSpecGo q (some b) rest := rfl

theorem simStep_none (q : List ℝ) (e : CacheEntry) :
    simStep q (none, 0) e =
      if cosineSimilarity q e.embedding > SIMILARITY_THRESHOLD then
        (some e, cosineSimilarity q e.embedding)
      else (none, 0) := rfl

theorem simStep_some (q : List ℝ) (b e : CacheEntry) (score : ℝ) :
    simStep q (some b, score) e =
      if cosineSimilarity q e.embedding > SIMILARITY_THRESHOLD then
        (if haversineDistance e.lat e.lng b.lat b.lng < DISTANCE_THRESHOLD ∧
            cosineSimilarity q e.embedding > score then
          (some e, cosineSimilarity q e.embedding)
        else (some b, score))
      else (some b, score) := rfl

/-- The loop invariant: the threaded `bestScore` is the similarity of the
threaded `bestMatch`, so the fold agrees with the spec-side recursion. -/
theorem findSimilar_go (q : List ℝ) :
    ∀ entries : List CacheEntry,
      ((entries.foldl (simStep q) ((none : Option CacheEntry), (0 : ℝ))).1 =
        findSimilarSpecGo q none entries) ∧
      (∀ b : CacheEntry,
        (entries.foldl (simStep q) (some b, cosineSimilarity q b.embedding)).1 =
          findSimilarSpecGo q (some b) entries) := by
  intro entries
  induction entries with
  | nil => exact ⟨rfl, fun b => rfl⟩
  | cons e rest ih =>
    constructor
    · rw [List.foldl_cons, simStep_none, specGo_none_cons]
      by_cases hs : cosineSimilarity q e.embedding > SIMILARITY_THRESHOLD
      · rw [if_pos hs, if_pos hs]
        exact ih.2 e
      · rw [if_neg hs, if_neg hs]
        exact ih.1
    · intro b
      rw [List.foldl_cons, simStep_some, specGo_some_cons]
      by_cases hs : cosineSimilarity q e.embedding > SIMILARITY_THRESHOLD
      · by_cases hc : haversineDistance e.lat e.lng b.lat b.lng < DISTANCE_THRESHOLD ∧
            cosineSimilarity q e.embedding > cosineSimilarity q b.embedding
        · rw [if_pos hs, if_pos hc, if_pos ⟨hs, hc.2, hc.1⟩]
          exact ih.2 e
        · rw [if_pos hs, if_neg hc, if_neg (by tauto)]
          exact ih.2 b
      · rw [if_neg hs, if_neg (by tauto)]
        exact ih.2 b

/-- Claim C1: `findSimilar` implements exactly the spec's selection policy —
scanning in order, the first entry whose cosine similarity to the query
exceeds `SIMILARITY_THRESHOLD` becomes the provisional best unconditionally; a
later candidate replaces it only if its similarity exceeds the provisional
best's similarity and its great-circle distance to the current provisional
best is under `DISTANCE_THRESHOLD` (so a candidate 800 m away never overrides
it); the final provisional best (or `none`) is returned. -/
theorem findSimilar_selection_policy (entries : List CacheEntry)
    (normalizedAddress : String) (q : List ℝ) :
    findSimilar normalizedAddress q entries = findSimilarSpec q entries :=
  (findSimilar_go q entries).1

/-! ## Claim C8: matching never reads timestamps -/

theorem simStep_none_acc (q : List ℝ) (sc : ℝ) (e : CacheEntry) :
    simStep q (none, sc) e =
      if cosineSimilarity q e.embedding > SIMILARITY_THRESHOLD then
        (some e, cosineSimilarity q e.embedding)
      else (none, sc) := rfl

theorem simStep_some_acc (q : List ℝ) (b : CacheEntry) (sc : ℝ) (e : CacheEntry) :
    simStep q (some b, sc) e =
      if cosineSimilarity q e.embedding > SIMILARITY_THRESHOLD then
        (if haversineDistance e.lat e.lng b.lat b.lng < DISTANCE_THRESHOLD ∧
            cosineSimilarity q e.embedding > sc then
          (some e, cosineSimilarity q e.embedding)
        else (some b, sc))
      else (some b, sc) := rfl

theorem simStep_congr (q : List ℝ) (p1 p2 : Option CacheEntry × ℝ)
    (ho : optRel eqModTime p1.1 p2.1) (hsc : p1.2 = p2.2)
    (e1 e2 : CacheEntry) (he : eqModTime e1 e2) :
    optRel eqModTime (simStep q p1 e1).1 (simStep q p2 e2).1 ∧
      (simStep q p1 e1).2 = (simStep q p2 e2).2 := by
  obtain ⟨o1, s1⟩ := p1
  obtain ⟨o2, s2⟩ := p2
  dsimp only at ho hsc
  subst hsc
  obtain ⟨ha, hn, hlat, hlng, hst, hdn, hemb⟩ := he
  cases o1 with
  | none =>
    cases o2 with
    | some b2 => exact ho.elim
    | none =>
      rw [simStep_none_acc, simStep_none_acc, ← hemb]
      by_cases hs : cosineSimilarity q e1.embedding > SIMILARITY_THRESHOLD
      · rw [if_pos hs, if_pos hs]
        exact ⟨⟨ha, hn, hlat, hlng, hst, hdn, hemb⟩, rfl⟩
      · rw [if_neg hs, if_neg hs]
        exact ⟨trivial, rfl⟩
  | some b1 =>
    cases o2 with
    | none => exact ho.elim
    | some b2 =>
      have hb := ho
      obtain ⟨-, -, hblat, hblng, -, -, hbemb⟩ := hb
      rw [simStep_some_acc, simStep_some_acc, ← hemb, ← hblat, ← hblng, ← hlat, ← hlng]
      by_cases hs : cosineSimilarity q e1.embedding > SIMILARITY_THRESHOLD
      · by_cases hc : haversineDistance e1.lat e1.lng b1.lat b1.lng < DISTANCE_THRESHOLD ∧
            cosineSimilarity q e1.embedding > s1
        · rw [if_pos hs, if_pos hs, if_pos hc, if_pos hc]
          exact ⟨⟨ha, hn, hlat, hlng, hst, hdn, hemb⟩, rfl⟩
        · rw [if_pos hs, if_pos hs, if_neg hc, if_neg hc]
          exact ⟨ho, rfl⟩
      · rw [if_neg hs, if_neg hs]
        exact ⟨ho, rfl⟩

theorem findSimilar_fold_congr (q : List ℝ) :
    ∀ es1 es2 : List CacheEntry, List.Forall₂ eqModTime es1 es2 →
      ∀ p1 p2 : Option CacheEntry × ℝ, optRel eqModTime p1.1 p2.1 → p1.2 = p2.2 →
        optRel eqModTime (es1.foldl (simStep q) p1).1 (es2.foldl (simStep q) p2).1 := by
  intro es1 es2 h
  induction h with
  | nil => intro p1 p2 ho _; exact ho
  | cons he ht ih =>
    intro p1 p2 ho hsc
    rw [List.foldl_cons, List.foldl_cons]
    have hstep := simStep_congr q p1 p2 ho hsc _ _ he
    exact ih _ _ hstep.1 hstep.2

theorem findNearby_congr (lat lng r : ℝ) :
    ∀ es1 es2 : List CacheEntry, List.Forall₂ eqModTime es1 es2 →
      optRel eqModTime (findNearby es1 lat lng r) (findNearby es2 lat lng r) := by
  intro es1 es2 h
  induction h with
  | nil => exact trivial
  | cons he ht ih =>
    rw [findNearby_cons, findNearby_cons]
    have hlat := he.2.2.1
    have hlng := he.2.2.2.1
    rw [← hlat, ← hlng]
    split
    · exact he
    · exact ih

/-- Claim C8: `findSimilar` and `findNearby` are invariant under any change of
the stored entries' timestamps — on two store states whose entries agree on
every field except `timestamp`, both scans return the same entry (up to its
timestamp).  In particular the matching list is not pruned by TTL: an entry of
any age can be returned. -/
theorem matching_ignores_timestamps (es1 es2 : List CacheEntry)
    (h : List.Forall₂ eqModTime es1 es2) (n : String) (q : List ℝ) (lat lng r : ℝ) :
    optRel eqModTime (findSimilar n q es1) (findSimilar n q es2) ∧
    optRel eqModTime (findNearby es1 lat lng r) (findNearby es2 lat lng r) :=
  ⟨findSimilar_fold_congr q es1 es2 h (none, 0) (none, 0) trivial rfl,
   findNearby_congr lat lng r es1 es2 h⟩

/-- Witness for claim C8: a singleton store state and the same state with the
entry's timestamp changed from 0 to 3. -/
theorem matching_ignores_timestamps_witness :
    optRel eqModTime (findSimilar "x" [] [entryA1])
      (findSimilar "x" [] [⟨"a", "a", 1, 2, someStructured, "A one", [1], 3⟩]) ∧
    optRel eqModTime (findNearby [entryA1] 1 2 5)
      (findNearby [⟨"a", "a", 1, 2, someStructured, "A one", [1], 3⟩] 1 2 5) :=
  matching_ignores_timestamps [entryA1] [⟨"a", "a", 1, 2, someStructured, "A one", [1], 3⟩]
    (List.Forall₂.cons ⟨rfl, rfl, rfl, rfl, rfl, rfl, rfl⟩ List.Forall₂.nil) "x" [] 1 2 5

/-! ## Claim C6: cosineSimilarity is total with range [−1, 1] -/

theorem sumSq_nonneg (v : List ℝ) : 0 ≤ sumSq v := by
  unfold sumSq
  apply List.sum_nonneg
  intro x hx
  obtain ⟨a, _, rfl⟩ := List.mem_map.mp hx
  exact mul_self_nonneg a

theorem list_cauchy_schwarz : ∀ v1 v2 : List ℝ, (dotList v1 v2) ^ 2 ≤ sumSq v1 * sumSq v2 := by
  intro v1
  induction v1 with
  | nil =>
    intro v2
    simp [dotList, sumSq]
  | cons a v1 ih =>
    intro v2
    cases v2 with
    | nil => simp [dotList, sumSq]
    | cons b v2 =>
      have hIH := ih v2
      have hX := sumSq_nonneg v1
      have hY := sumSq_nonneg v2
      have hdot : dotList (a :: v1) (b :: v2) = a * b + dotList v1 v2 := by
        simp [dotList]
      have hs1 : sumSq (a :: v1) = a * a + sumSq v1 := by simp [sumSq]
      have hs2 : sumSq (b :: v2) = b * b + sumSq v2 := by simp [sumSq]
      rw [hdot, hs1, hs2]
      rcases eq_or_lt_of_le hY with hY0 | hYpos
      · have hS2 : dotList v1 v2 ^ 2 ≤ 0 := by
          rw [← hY0] at hIH
          simpa using hIH
        have hS : dotList v1 v2 = 0 := by
          have hnn := sq_nonneg (dotList v1 v2)
          have h0 : dotList v1 v2 ^ 2 = 0 := le_antisymm hS2 hnn
          exact pow_eq_zero_iff (by norm_num) |>.mp h0
        rw [hS, ← hY0]
        nlinarith [mul_nonneg hX (sq_nonneg b)]
      · nlinarith [sq_nonneg (a * sumSq v2 - b * dotList v1 v2),
          mul_nonneg (sq_nonneg b) (sub_nonneg.mpr hIH),
          mul_nonneg hY (sub_nonneg.mpr hIH), hYpos]

/-- Claim C6: `cosineSimilarity` is a total function whose value always lies
in [−1, 1]; it returns exactly 0 when the vectors differ in length or when
either magnitude is 0 (a defined degenerate value), and otherwise the dot
product over the product of magnitudes, whose denominator is then nonzero
(the guarded division's zero-denominator branch is unreachable). -/
theorem cosineSimilarity_spec (vec1 vec2 : List ℝ) :
    (-1 ≤ cosineSimilarity vec1 vec2 ∧ cosineSimilarity vec1 vec2 ≤ 1) ∧
    (vec1.length ≠ vec2.length → cosineSimilarity vec1 vec2 = 0) ∧
    (magnitude vec1 = 0 ∨ magnitude vec2 = 0 → cosineSimilarity vec1 vec2 = 0) ∧
    (vec1.length = vec2.length → magnitude vec1 ≠ 0 → magnitude vec2 ≠ 0 →
      cosineSimilarity vec1 vec2 =
        dotList vec1 vec2 / (magnitude vec1 * magnitude vec2) ∧
      magnitude vec1 * magnitude vec2 ≠ 0) := by
  refine ⟨?_, ?_, ?_, ?_⟩
  · unfold cosineSimilarity
    by_cases hlen : vec1.length ≠ vec2.length
    · rw [if_pos hlen]
      norm_num
    · rw [if_neg hlen]
      by_cases hmag : magnitude vec1 = 0 ∨ magnitude vec2 = 0
      · rw [if_pos hmag]
        norm_num
      · rw [if_neg hmag]
        push_neg at hmag
        obtain ⟨h1, h2⟩ := hmag
        have hm1 : 0 < magnitude vec1 :=
          lt_of_le_of_ne (Real.sqrt_nonneg _) (Ne.symm h1)
        have hm2 : 0 < magnitude vec2 :=
          lt_of_le_of_ne (Real.sqrt_nonneg _) (Ne.symm h2)
        have hpos : 0 < magnitude vec1 * magnitude vec2 := mul_pos hm1 hm2
        have hm1sq : magnitude vec1 ^ 2 = sumSq vec1 := Real.sq_sqrt (sumSq_nonneg vec1)
        have hm2sq : magnitude vec2 ^ 2 = sumSq vec2 := Real.sq_sqrt (sumSq_nonneg vec2)
        have hsq : dotList vec1 vec2 ^ 2 ≤ (magnitude vec1 * magnitude vec2) ^ 2 := by
          rw [mul_pow, hm1sq, hm2sq]
          exact list_cauchy_schwarz vec1 vec2
        have habs : |dotList vec1 vec2| ≤ magnitude vec1 * magnitude vec2 := by
          have hroot := Real.sqrt_le_sqrt hsq
          rwa [Real.sqrt_sq_eq_abs, Real.sqrt_sq_eq_abs, abs_of_pos hpos] at hroot
        have hq : |dotList vec1 vec2 / (magnitude vec1 * magnitude vec2)| ≤ 1 := by
          rw [abs_div, abs_of_pos hpos]
          exact div_le_one_of_le habs hpos.le
        exact abs_le.mp hq
  · intro hlen
    unfold cosineSimilarity
    rw [if_pos hlen]
  · intro hmag
    unfold cosineSimilarity
    by_cases hlen : vec1.length ≠ vec2.length
    · rw [if_pos hlen]
    · rw [if_neg hlen, if_pos hmag]
  · intro hlen h1 h2
    unfold cosineSimilarity
    rw [if_neg (by simp [hlen]), if_neg (by tauto)]
    exact ⟨rfl, mul_ne_zero h1 h2⟩

theorem magnitude_single_one : magnitude [(1 : ℝ)] = 1 := by
  unfold magnitude sumSq
  norm_num

/-- Witness for claim C6 at the vectors `[1]`, `[1]` and `[1]`, `[0, 0]`. -/
theorem cosineSimilarity_spec_witness :
    (-1 ≤ cosineSimilarity [(1 : ℝ)] [(1 : ℝ)] ∧ cosineSimilarity [(1 : ℝ)] [(1 : ℝ)] ≤ 1) ∧
    cosineSimilarity [(1 : ℝ)] [(0 : ℝ), 0] = 0 ∧
    cosineSimilarity [(1 : ℝ)] [(1 : ℝ)] =
      dotList [(1 : ℝ)] [(1 : ℝ)] / (magnitude [(1 : ℝ)] * magnitude [(1 : ℝ)]) :=
  ⟨(cosineSimilarity_spec [(1 : ℝ)] [(1 : ℝ)]).1,
   (cosineSimilarity_spec [(1 : ℝ)] [(0 : ℝ), 0]).2.1 (by norm_num),
   ((cosineSimilarity_spec [(1 : ℝ)] [(1 : ℝ)]).2.2.2 rfl
      (by rw [magnitude_single_one]; norm_num)
      (by rw [magnitude_single_one]; norm_num)).1⟩

/-! ## Claim C4: character-level facts -/

theorem lowerChar_eq_or (c : Char) :
    lowerChar c = c ∨ lowerChar c ∈ "abcdefghijklmnopqrstuvwxyz".data := by
  unfold lowerChar
  split <;> simp

theorem lowerChar_of_not_upper (c : Char)
    (h : c ∉ "ABCDEFGHIJKLMNOPQRSTUVWXYZ".data) : lowerChar c = c := by
  unfold lowerChar
  split <;> first | rfl | (exact absurd (by decide) h)

theorem lowercase_fixed : ∀ d ∈ "abcdefghijklmnopqrstuvwxyz".data, lowerChar d = d := by
  decide

theorem lowercase_word : ∀ d ∈ "abcdefghijklmnopqrstuvwxyz".data, isWordChar d = true := by
  decide

theorem upper_not_space : ∀ d ∈ "ABCDEFGHIJKLMNOPQRSTUVWXYZ".data, isSpaceChar d = false := by
  decide

theorem spaces_not_word : ∀ d ∈ " \t\n\r\x0b\x0c".data, isWordChar d = false := by
  decide

theorem lowerChar_idem (c : Char) : lowerChar (lowerChar c) = lowerChar c := by
  rcases lowerChar_eq_or c with h | h
  · rw [h]
    exact h
  · exact lowercase_fixed _ h

theorem isWordChar_lowerChar (c : Char) (h : isWordChar c = true) :
    isWordChar (lowerChar c) = true := by
  rcases lowerChar_eq_or c with h2 | h2
  · rw [h2]
    exact h
  · exact lowercase_word _ h2

theorem lowerChar_space_eq (c : Char) (h : isSpaceChar c = true) : lowerChar c = c := by
  apply lowerChar_of_not_upper
  intro hmem
  rw [upper_not_space c hmem] at h
  cases h

theorem space_mem (c : Char) (h : isSpaceChar c = true) : c ∈ " \t\n\r\x0b\x0c".data := by
  unfold isSpaceChar at h
  simp only [Bool.or_eq_true, beq_iff_eq] at h
  rcases h with (((((rfl | rfl) | rfl) | rfl) | rfl) | rfl) <;> decide

theorem word_not_space (c : Char) (h : isWordChar c = true) : isSpaceChar c = false := by
  cases hs : isSpaceChar c
  · rfl
  · rw [spaces_not_word c (space_mem c hs)] at h
    cases h

/- trim structure -/

theorem headNotSpace_dropWhile (l : List Char) :
    headNotSpace (l.dropWhile isSpaceChar) = true := by
  induction l with
  | nil => rfl
  | cons c cs ih =>
    rw [List.dropWhile_cons]
    split
    · exact ih
    · simp only [headNotSpace]
      rw [Bool.not_eq_true']
      exact Bool.not_eq_true _ |>.mp (by assumption)

theorem lastNotSpace_cons_of_ne_nil (c : Char) (l : List Char) (h : l ≠ []) :
    lastNotSpace (c :: l) = lastNotSpace l := by
  cases l with
  | nil => exact absurd rfl h
  | cons d cs => rfl

theorem lastNotSpace_append_single (xs : List Char) (c : Char) :
    lastNotSpace (xs ++ [c]) = !(isSpaceChar c) := by
  induction xs with
  | nil => rfl
  | cons x xs ih =>
    rw [List.cons_append, lastNotSpace_cons_of_ne_nil x (xs ++ [c]) (by simp), ih]

theorem lastNotSpace_reverse (l : List Char) :
    lastNotSpace l.reverse = headNotSpace l := by
  cases l with
  | nil => rfl
  | cons c cs =>
    rw [List.reverse_cons, lastNotSpace_append_single]
    rfl

theorem lastNotSpace_dropWhile (l : List Char) (h : lastNotSpace l = true) :
    lastNotSpace (l.dropWhile isSpaceChar) = true := by
  induction l with
  | nil => rfl
  | cons c cs ih =>
    rw [List.dropWhile_cons]
    split
    · cases cs with
      | nil => rfl
      | cons d ds =>
        exact ih (by rwa [lastNotSpace_cons_of_ne_nil c (d :: ds) (by simp)] at h)
    · exact h

theorem dropWhile_of_headNotSpace (l : List Char) (h : headNotSpace l = true) :
    l.dropWhile isSpaceChar = l := by
  cases l with
  | nil => rfl
  | cons c cs =>
    rw [List.dropWhile_cons, if_neg]
    simp only [headNotSpace, Bool.not_eq_true'] at h
    simp [h]

theorem trimChars_headNotSpace (l : List Char) : headNotSpace (trimChars l) = true :=
  headNotSpace_dropWhile _

theorem trimChars_lastNotSpace (l : List Char) : lastNotSpace (trimChars l) = true := by
  unfold trimChars
  apply lastNotSpace_dropWhile
  rw [lastNotSpace_reverse]
  exact headNotSpace_dropWhile _

theorem mem_trimChars (l : List Char) (c : Char) (h : c ∈ trimChars l) : c ∈ l := by
  unfold trimChars at h
  have h1 := (List.dropWhile_sublist isSpaceChar).subset h
  rw [List.mem_reverse] at h1
  have h2 := (List.dropWhile_sublist isSpaceChar).subset h1
  rwa [List.mem_reverse] at h2

theorem trimChars_fixed (l : List Char) (h1 : headNotSpace l = true)
    (h2 : lastNotSpace l = true) : trimChars l = l := by
  unfold trimChars
  rw [dropWhile_of_headNotSpace l.reverse (by rw [← lastNotSpace_reverse, List.reverse_reverse]; exact h2),
    List.reverse_reverse, dropWhile_of_headNotSpace l h1]

/- collapse structure -/

theorem collapse_cons_nonspace (c : Char) (l : List Char) (hc : isSpaceChar c = false) :
    collapseSpaces (c :: l) = c :: collapseSpaces l := by
  cases l with
  | nil => simp [collapseSpaces, hc]
  | cons d cs => simp [collapseSpaces, hc]

theorem collapse_space_cons (c d : Char) (cs : List Char) (hc : isSpaceChar c = true)
    (hd : isSpaceChar d = false) :
    collapseSpaces (c :: d :: cs) = ' ' :: collapseSpaces (d :: cs) := by
  simp [collapseSpaces, hc, hd]

theorem collapse_space_skip (c d : Char) (cs : List Char) (hc : isSpaceChar c = true)
    (hd : isSpaceChar d = true) :
    collapseSpaces (c :: d :: cs) = collapseSpaces (d :: cs) := by
  simp [collapseSpaces, hc, hd]

theorem mem_collapseSpaces (l : List Char) (c : Char) (h : c ∈ collapseSpaces l) :
    c = ' ' ∨ c ∈ l := by
  induction l with
  | nil => cases h
  | cons a tail ih =>
    cases tail with
    | nil =>
      unfold collapseSpaces at h
      split at h
      · simp at h
        exact Or.inl h
      · simp at h
        exact Or.inr (by simp [h])
    | cons d cs =>
      unfold collapseSpaces at h
      split at h
      · split at h
        · rcases ih h with h2 | h2
          · exact Or.inl h2
          · exact Or.inr (List.mem_cons_of_mem a h2)
        · rcases List.mem_cons.mp h with h2 | h2
          · exact Or.inl h2
          · rcases ih h2 with h3 | h3
            · exact Or.inl h3
            · exact Or.inr (List.mem_cons_of_mem a h3)
      · rcases List.mem_cons.mp h with h2 | h2
        · exact Or.inr (h2 ▸ List.mem_cons_self a _)
        · rcases ih h2 with h3 | h3
          · exact Or.inl h3
          · exact Or.inr (List.mem_cons_of_mem a h3)

/- joinTokens structure -/

theorem joinTokens_cons_of_ne_nil (t : List Char) (ts : List (List Char)) (h : ts ≠ []) :
    joinTokens (t :: ts) = t ++ ' ' :: joinTokens ts := by
  cases ts with
  | nil => exact absurd rfl h
  | cons t2 ts2 => simp [joinTokens, List.intersperse]

theorem joinTokens_cons_cons (c : Char) (t : List Char) (ts : List (List Char)) :
    joinTokens ((c :: t) :: ts) = c :: joinTokens (t :: ts) := by
  cases ts with
  | nil => simp [joinTokens, List.intersperse]
  | cons t2 ts2 => simp [joinTokens, List.intersperse]

theorem joinTokens_singleton (t : List Char) : joinTokens [t] = t := by
  simp [joinTokens, List.intersperse]

theorem headNotSpace_cons (c : Char) (l : List Char) :
    headNotSpace (c :: l) = !(isSpaceChar c) := rfl

theorem wordOrSpace_not_space (c : Char) (hws : wordOrSpace c = true)
    (hc : isSpaceChar c = false) : isWordChar c = true := by
  unfold wordOrSpace at hws
  simp only [Bool.or_eq_true] at hws
  rcases hws with h | h
  · exact h
  · rw [hc] at h
    cases h

theorem collapse_shape :
    ∀ l : List Char, (∀ x ∈ l, wordOrSpace x = true) → lastNotSpace l = true → l ≠ [] →
      ∃ ts, GoodTokens ts ∧ ts ≠ [] ∧
        collapseSpaces l =
          (if headNotSpace l = true then joinTokens ts else ' ' :: joinTokens ts) := by
  intro l
  induction l with
  | nil =>
    intro _ _ hne
    exact absurd rfl hne
  | cons c tail ih =>
    intro hws hlast _
    cases tail with
    | nil =>
      have hc : isSpaceChar c = false := by
        simpa [lastNotSpace] using hlast
      have hcw : isWordChar c = true :=
        wordOrSpace_not_space c (hws c (by simp)) hc
      refine ⟨[[c]], ?_, by simp, ?_⟩
      · intro t ht
        rw [List.mem_singleton] at ht
        subst ht
        refine ⟨by simp, ?_⟩
        intro x hx
        rw [List.mem_singleton] at hx
        subst hx
        exact hcw
      · rw [joinTokens_singleton, headNotSpace_cons, hc]
        simp [collapseSpaces, hc]
    | cons d cs =>
      have hws2 : ∀ x ∈ d :: cs, wordOrSpace x = true :=
        fun x hx => hws x (List.mem_cons_of_mem c hx)
      have hlast2 : lastNotSpace (d :: cs) = true := by
        rwa [lastNotSpace_cons_of_ne_nil c (d :: cs) (by simp)] at hlast
      obtain ⟨ts, hgood, hne, hcoll⟩ := ih hws2 hlast2 (by simp)
      rw [headNotSpace_cons d cs] at hcoll
      cases hc0 : isSpaceChar c with
      | true =>
        cases hd0 : isSpaceChar d with
        | true =>
          rw [hd0] at hcoll
          simp only [Bool.not_true] at hcoll
          rw [if_neg (by simp)] at hcoll
          refine ⟨ts, hgood, hne, ?_⟩
          rw [collapse_space_skip c d cs hc0 hd0, hcoll, headNotSpace_cons, hc0]
          simp
        | false =>
          rw [hd0] at hcoll
          simp only [Bool.not_false] at hcoll
          rw [if_pos trivial] at hcoll
          refine ⟨ts, hgood, hne, ?_⟩
          rw [collapse_space_cons c d cs hc0 hd0, hcoll, headNotSpace_cons, hc0]
          simp
      | false =>
        have hcw : isWordChar c = true :=
          wordOrSpace_not_space c (hws c (by simp)) hc0
        cases hd0 : isSpaceChar d with
        | true =>
          rw [hd0] at hcoll
          simp only [Bool.not_true] at hcoll
          rw [if_neg (by simp)] at hcoll
          refine ⟨[c] :: ts, ?_, by simp, ?_⟩
          · intro t ht
            rcases List.mem_cons.mp ht with rfl | ht2
            · refine ⟨by simp, ?_⟩
              intro x hx
              rw [List.mem_singleton] at hx
              subst hx
              exact hcw
            · exact hgood t ht2
          · rw [collapse_cons_nonspace c (d :: cs) hc0, hcoll,
              joinTokens_cons_of_ne_nil [c] ts hne, headNotSpace_cons, hc0]
            simp
        | false =>
          rw [hd0] at hcoll
          simp only [Bool.not_false] at hcoll
          rw [if_pos trivial] at hcoll
          obtain ⟨t, ts2, rfl⟩ := List.exists_cons_of_ne_nil hne
          have htne : t ≠ [] := (hgood t (List.mem_cons_self t ts2)).1
          obtain ⟨e, t2, rfl⟩ := List.exists_cons_of_ne_nil htne
          refine ⟨(c :: e :: t2) :: ts2, ?_, by simp, ?_⟩
          · intro t ht
            rcases List.mem_cons.mp ht with rfl | ht2
            · refine ⟨by simp, ?_⟩
              intro x hx
              rcases List.mem_cons.mp hx with rfl | hx2
              · exact hcw
              · exact (hgood (e :: t2) (List.mem_cons_self _ _)).2 x hx2
            · exact hgood t (List.mem_cons_of_mem _ ht2)
          · rw [collapse_cons_nonspace c (d :: cs) hc0, hcoll,
              joinTokens_cons_cons c (e :: t2) ts2, headNotSpace_cons, hc0]
            simp

theorem replaceWordAux_nil (pat repl run : List Char) :
    replaceWordAux pat repl run [] = flushRun pat repl run.reverse := rfl

theorem replaceWordAux_cons (pat repl run : List Char) (c : Char) (cs : List Char) :
    replaceWordAux pat repl run (c :: cs) =
      if isWordChar c = true then replaceWordAux pat repl (c :: run) cs
      else flushRun pat repl run.reverse ++ c :: replaceWordAux pat repl [] cs := rfl

theorem replaceWordAux_word_run (pat repl : List Char) :
    ∀ (t run rest : List Char), (∀ c ∈ t, isWordChar c = true) →
      replaceWordAux pat repl run (t ++ rest) =
        replaceWordAux pat repl (t.reverse ++ run) rest := by
  intro t
  induction t with
  | nil =>
    intro run rest _
    simp
  | cons c t ih =>
    intro run rest hw
    rw [List.cons_append, replaceWordAux_cons, if_pos (hw c (List.mem_cons_self c t)),
      ih (c :: run) rest (fun x hx => hw x (List.mem_cons_of_mem c hx))]
    simp

theorem replaceWordAux_join (pat repl : List Char) (hpat : pat ≠ []) :
    ∀ ts : List (List Char), GoodTokens ts →
      replaceWordAux pat repl [] (joinTokens ts) =
        joinTokens (ts.map (flushRun pat repl)) := by
  intro ts
  induction ts with
  | nil =>
    intro _
    show flushRun pat repl [].reverse = joinTokens []
    unfold flushRun
    rw [if_neg (by simpa using Ne.symm hpat)]
    rfl
  | cons t ts ih =>
    intro hgood
    have htgood := hgood t (List.mem_cons_self t ts)
    have hgood2 : GoodTokens ts := fun u hu => hgood u (List.mem_cons_of_mem t hu)
    cases ts with
    | nil =>
      have hjt : joinTokens [t] = t ++ [] := by
        rw [joinTokens_singleton, List.append_nil]
      rw [hjt, replaceWordAux_word_run pat repl t [] [] htgood.2, replaceWordAux_nil,
        List.append_nil, List.reverse_reverse]
      rw [show List.map (flushRun pat repl) [t] = [flushRun pat repl t] from rfl,
        joinTokens_singleton]
    | cons t2 ts2 =>
      have hRHS : joinTokens (List.map (flushRun pat repl) (t :: t2 :: ts2)) =
          flushRun pat repl t ++ ' ' :: joinTokens (List.map (flushRun pat repl) (t2 :: ts2)) := by
        rw [List.map_cons]
        exact joinTokens_cons_of_ne_nil _ _ (by simp)
      rw [hRHS, joinTokens_cons_of_ne_nil t (t2 :: ts2) (by simp),
        replaceWordAux_word_run pat repl t [] (' ' :: joinTokens (t2 :: ts2)) htgood.2,
        replaceWordAux_cons, if_neg (by decide), ih hgood2, List.append_nil,
        List.reverse_reverse]

theorem GoodTokens_map_flushRun (pat repl : List Char) (hne : repl ≠ [])
    (hw : ∀ c ∈ repl, isWordChar c = true) (ts : List (List Char))
    (hgood : GoodTokens ts) : GoodTokens (ts.map (flushRun pat repl)) := by
  intro t ht
  obtain ⟨u, hu, rfl⟩ := List.mem_map.mp ht
  unfold flushRun
  split
  · exact ⟨hne, hw⟩
  · exact hgood u hu

theorem normalizeAddress_eq (s : String) :
    normalizeAddress s =
      String.mk (replaceAll
        ((collapseSpaces (trimChars (s.data.map lowerChar))).filter wordOrSpace)) := rfl

theorem replaceAll_joinTokens (ts : List (List Char)) (hgood : GoodTokens ts) :
    replaceAll (joinTokens ts) = joinTokens (ts.map tokenMap) := by
  unfold replaceAll replaceWord
  have h1 := replaceWordAux_join "rd".data "road".data (by decide) ts hgood
  have g1 : GoodTokens (ts.map (flushRun "rd".data "road".data)) :=
    GoodTokens_map_flushRun _ _ (by decide) (by decide) ts hgood
  rw [h1, replaceWordAux_join "st".data "street".data (by decide) _ g1]
  have g2 := GoodTokens_map_flushRun "st".data "street".data (by decide) (by decide) _ g1
  rw [replaceWordAux_join "ave".data "avenue".data (by decide) _ g2]
  have g3 := GoodTokens_map_flushRun "ave".data "avenue".data (by decide) (by decide) _ g2
  rw [replaceWordAux_join "mh".data "maharashtra".data (by decide) _ g3]
  have g4 := GoodTokens_map_flushRun "mh".data "maharashtra".data (by decide) (by decide) _ g3
  rw [replaceWordAux_join "maha".data "maharashtra".data (by decide) _ g4]
  simp only [List.map_map]
  rfl

theorem tokenMap_cases (t : List Char) :
    tokenMap t = t ∨ tokenMap t = "road".data ∨ tokenMap t = "street".data ∨
    tokenMap t = "avenue".data ∨ tokenMap t = "maharashtra".data := by
  unfold tokenMap flushRun
  split_ifs <;> simp

theorem tokenMap_idem (t : List Char) : tokenMap (tokenMap t) = tokenMap t := by
  rcases tokenMap_cases t with h | h | h | h | h
  · rw [h]
    exact h
  all_goals (rw [h]; decide)

theorem GoodTokens_tokenMap (ts : List (List Char)) (hgood : GoodTokens ts) :
    GoodTokens (ts.map tokenMap) := by
  intro t ht
  obtain ⟨u, hu, rfl⟩ := List.mem_map.mp ht
  rcases tokenMap_cases u with h | h | h | h | h <;> rw [h]
  · exact hgood u hu
  all_goals exact ⟨by decide, by decide⟩

theorem mem_joinTokens (ts : List (List Char)) (c : Char) (h : c ∈ joinTokens ts) :
    c = ' ' ∨ ∃ t ∈ ts, c ∈ t := by
  induction ts with
  | nil => cases h
  | cons t ts ih =>
    cases ts with
    | nil =>
      rw [joinTokens_singleton] at h
      exact Or.inr ⟨t, List.mem_singleton.mpr rfl, h⟩
    | cons t2 ts2 =>
      rw [joinTokens_cons_of_ne_nil t (t2 :: ts2) (by simp)] at h
      rcases List.mem_append.mp h with h1 | h1
      · exact Or.inr ⟨t, List.mem_cons_self t _, h1⟩
      · rcases List.mem_cons.mp h1 with rfl | h2
        · exact Or.inl rfl
        · rcases ih h2 with h3 | ⟨u, hu, hc⟩
          · exact Or.inl h3
          · exact Or.inr ⟨u, List.mem_cons_of_mem t hu, hc⟩

theorem mem_token_joinTokens (ts : List (List Char)) (t : List Char) (c : Char)
    (ht : t ∈ ts) (hc : c ∈ t) : c ∈ joinTokens ts := by
  induction ts with
  | nil => cases ht
  | cons u ts ih =>
    cases ts with
    | nil =>
      rw [List.mem_singleton] at ht
      subst ht
      rwa [joinTokens_singleton]
    | cons t2 ts2 =>
      rw [joinTokens_cons_of_ne_nil u (t2 :: ts2) (by simp)]
      rcases List.mem_cons.mp ht with rfl | ht2
      · exact List.mem_append.mpr (Or.inl hc)
      · exact List.mem_append.mpr (Or.inr (List.mem_cons_of_mem ' ' (ih ht2)))

theorem joinTokens_wordOrSpace (ts : List (List Char)) (hgood : GoodTokens ts) :
    ∀ c ∈ joinTokens ts, wordOrSpace c = true := by
  intro c hc
  rcases mem_joinTokens ts c hc with rfl | ⟨t, ht, hct⟩
  · decide
  · unfold wordOrSpace
    rw [(hgood t ht).2 c hct]
    rfl

theorem headNotSpace_joinTokens (ts : List (List Char)) (hgood : GoodTokens ts) :
    headNotSpace (joinTokens ts) = true := by
  cases ts with
  | nil => rfl
  | cons t ts =>
    have htgood := hgood t (List.mem_cons_self t ts)
    obtain ⟨e, t2, rfl⟩ := List.exists_cons_of_ne_nil htgood.1
    rw [joinTokens_cons_cons, headNotSpace_cons,
      word_not_space e (htgood.2 e (List.mem_cons_self e t2))]
    rfl

theorem lastNotSpace_all_word (t : List Char) (hw : ∀ c ∈ t, isWordChar c = true)
    (hne : t ≠ []) : lastNotSpace t = true := by
  induction t with
  | nil => exact absurd rfl hne
  | cons c cs ih =>
    cases cs with
    | nil =>
      simp only [lastNotSpace]
      rw [word_not_space c (hw c (List.mem_cons_self c []))]
      rfl
    | cons d ds =>
      rw [lastNotSpace_cons_of_ne_nil c (d :: ds) (by simp)]
      exact ih (fun x hx => hw x (List.mem_cons_of_mem c hx)) (by simp)

theorem lastNotSpace_append_right (l1 l2 : List Char) (h : l2 ≠ []) :
    lastNotSpace (l1 ++ l2) = lastNotSpace l2 := by
  induction l1 with
  | nil => rfl
  | cons c cs ih =>
    rw [List.cons_append, lastNotSpace_cons_of_ne_nil c (cs ++ l2) (by
      intro hnil
      rcases List.append_eq_nil.mp hnil with ⟨-, h2⟩
      exact h h2), ih]

theorem joinTokens_ne_nil (t : List Char) (ts : List (List Char))
    (hgood : GoodTokens (t :: ts)) : joinTokens (t :: ts) ≠ [] := by
  obtain ⟨e, t2, rfl⟩ := List.exists_cons_of_ne_nil (hgood _ (List.mem_cons_self _ _)).1
  rw [joinTokens_cons_cons]
  simp

theorem lastNotSpace_joinTokens (ts : List (List Char)) (hgood : GoodTokens ts) :
    lastNotSpace (joinTokens ts) = true := by
  induction ts with
  | nil => rfl
  | cons t ts ih =>
    have htgood := hgood t (List.mem_cons_self t ts)
    have hgood2 : GoodTokens ts := fun u hu => hgood u (List.mem_cons_of_mem t hu)
    cases ts with
    | nil =>
      rw [joinTokens_singleton]
      exact lastNotSpace_all_word t htgood.2 htgood.1
    | cons t2 ts2 =>
      rw [joinTokens_cons_of_ne_nil t (t2 :: ts2) (by simp),
        lastNotSpace_append_right t (' ' :: joinTokens (t2 :: ts2)) (by simp),
        lastNotSpace_cons_of_ne_nil ' ' _ (joinTokens_ne_nil t2 ts2 hgood2)]
      exact ih hgood2

theorem collapse_word_run (t : List Char) (hw : ∀ c ∈ t, isWordChar c = true) :
    ∀ rest : List Char, collapseSpaces (t ++ rest) = t ++ collapseSpaces rest := by
  induction t with
  | nil => intro rest; rfl
  | cons c cs ih =>
    intro rest
    rw [List.cons_append,
      collapse_cons_nonspace c (cs ++ rest) (word_not_space c (hw c (List.mem_cons_self c cs))),
      ih (fun x hx => hw x (List.mem_cons_of_mem c hx)) rest, List.cons_append]

theorem collapseSpaces_joinTokens (ts : List (List Char)) (hgood : GoodTokens ts) :
    collapseSpaces (joinTokens ts) = joinTokens ts := by
  induction ts with
  | nil => rfl
  | cons t ts ih =>
    have htgood := hgood t (List.mem_cons_self t ts)
    have hgood2 : GoodTokens ts := fun u hu => hgood u (List.mem_cons_of_mem t hu)
    cases ts with
    | nil =>
      rw [joinTokens_singleton, show (t : List Char) = t ++ [] from (List.append_nil t).symm,
        collapse_word_run t htgood.2 []]
      rfl
    | cons t2 ts2 =>
      rw [joinTokens_cons_of_ne_nil t (t2 :: ts2) (by simp),
        collapse_word_run t htgood.2 (' ' :: joinTokens (t2 :: ts2))]
      have ht2good := hgood2 t2 (List.mem_cons_self t2 ts2)
      obtain ⟨e, u2, hu⟩ := List.exists_cons_of_ne_nil ht2good.1
      have hjcons : joinTokens (t2 :: ts2) = e :: joinTokens (u2 :: ts2) := by
        rw [hu, joinTokens_cons_cons]
      rw [hjcons, collapse_space_cons ' ' e (joinTokens (u2 :: ts2)) (by decide)
        (word_not_space e (by
          apply ht2good.2
          rw [hu]
          exact List.mem_cons_self e u2)), ← hjcons, ih hgood2]

theorem map_lowerChar_fixed (l : List Char) (h : ∀ c ∈ l, lowerChar c = c) :
    l.map lowerChar = l := by
  induction l with
  | nil => rfl
  | cons c cs ih =>
    rw [List.map_cons, h c (List.mem_cons_self c cs),
      ih (fun x hx => h x (List.mem_cons_of_mem c hx))]

theorem lowered_road : ∀ c ∈ "road".data, lowerChar c = c := by decide

theorem map_tokenMap_idem (ts : List (List Char)) :
    (ts.map tokenMap).map tokenMap = ts.map tokenMap := by
  induction ts with
  | nil => rfl
  | cons t ts ih =>
    simp only [List.map_cons]
    rw [tokenMap_idem, ih]

theorem lowered_street : ∀ c ∈ "street".data, lowerChar c = c := by decide

theorem lowered_avenue : ∀ c ∈ "avenue".data, lowerChar c = c := by decide

theorem lowered_maharashtra : ∀ c ∈ "maharashtra".data, lowerChar c = c := by decide

/-- Claim C4 counterexample: the normalizer is not idempotent.  On `"a . b"`
the punctuation stripping (step 4) runs after whitespace collapsing (step 3),
leaving the double space `"a  b"`; a second application collapses it to
`"a b"`. -/
theorem normalizeAddress_not_idempotent_cex :
    normalizeAddress "a . b" = "a  b" ∧
    normalizeAddress (normalizeAddress "a . b") ≠ normalizeAddress "a . b" := by
  constructor
  · decide
  · decide

/-- Claim C4 (amended): the normalizer is idempotent on every input consisting
only of word characters and whitespace (no characters for step 4 to strip).
On such inputs the pipeline yields a canonical token list — nonempty
all-word-character tokens separated by single spaces, all lowercase, with no
abbreviation token left — and every stage fixes that canonical form.  (For
inputs with punctuation, idempotence can fail because stripping may create new
whitespace runs, as the counterexample shows.) -/
theorem normalizeAddress_wordspace_idem (s : String)
    (h : ∀ c ∈ s.data, wordOrSpace c = true) :
    normalizeAddress (normalizeAddress s) = normalizeAddress s := by
  have hws1 : ∀ c ∈ s.data.map lowerChar, wordOrSpace c = true := by
    intro c hc
    obtain ⟨c0, hc0, rfl⟩ := List.mem_map.mp hc
    have hc0ws := h c0 hc0
    unfold wordOrSpace at hc0ws ⊢
    simp only [Bool.or_eq_true] at hc0ws ⊢
    rcases hc0ws with hw | hs
    · exact Or.inl (isWordChar_lowerChar c0 hw)
    · rw [lowerChar_space_eq c0 hs]
      exact Or.inr hs
  have hlow1 : ∀ c ∈ s.data.map lowerChar, lowerChar c = c := by
    intro c hc
    obtain ⟨c0, _, rfl⟩ := List.mem_map.mp hc
    exact lowerChar_idem c0
  have hws2 : ∀ c ∈ trimChars (s.data.map lowerChar), wordOrSpace c = true :=
    fun c hc => hws1 c (mem_trimChars _ c hc)
  have hlow2 : ∀ c ∈ trimChars (s.data.map lowerChar), lowerChar c = c :=
    fun c hc => hlow1 c (mem_trimChars _ c hc)
  by_cases hl2 : trimChars (s.data.map lowerChar) = []
  · have hns : normalizeAddress s = String.mk [] := by
      rw [normalizeAddress_eq, hl2]
      rfl
    rw [hns]
    decide
  · obtain ⟨ts, hgood, hne, hcoll⟩ :=
      collapse_shape (trimChars (s.data.map lowerChar)) hws2
        (trimChars_lastNotSpace _) hl2
    rw [if_pos (trimChars_headNotSpace (s.data.map lowerChar))] at hcoll
    have hlow3 : ∀ c ∈ joinTokens ts, lowerChar c = c := by
      intro c hc
      rw [← hcoll] at hc
      rcases mem_collapseSpaces _ c hc with rfl | hc2
      · decide
      · exact hlow2 c hc2
    have hfilter : (joinTokens ts).filter wordOrSpace = joinTokens ts :=
      List.filter_eq_self.mpr (joinTokens_wordOrSpace ts hgood)
    have hns : normalizeAddress s = String.mk (joinTokens (ts.map tokenMap)) := by
      rw [normalizeAddress_eq, hcoll, hfilter, replaceAll_joinTokens ts hgood]
    have hgood9 : GoodTokens (ts.map tokenMap) := GoodTokens_tokenMap ts hgood
    have hlow9 : ∀ c ∈ joinTokens (ts.map tokenMap), lowerChar c = c := by
      intro c hc
      rcases mem_joinTokens _ c hc with rfl | ⟨t, ht, hct⟩
      · decide
      · obtain ⟨u, hu, rfl⟩ := List.mem_map.mp ht
        rcases tokenMap_cases u with he | he | he | he | he
        · rw [he] at hct
          exact hlow3 c (mem_token_joinTokens ts u c hu hct)
        · rw [he] at hct
          exact lowered_road c hct
        · rw [he] at hct
          exact lowered_street c hct
        · rw [he] at hct
          exact lowered_avenue c hct
        · rw [he] at hct
          exact lowered_maharashtra c hct
    rw [hns, normalizeAddress_eq]
    have hdata : (String.mk (joinTokens (ts.map tokenMap))).data =
        joinTokens (ts.map tokenMap) := rfl
    rw [hdata, map_lowerChar_fixed _ hlow9,
      trimChars_fixed _ (headNotSpace_joinTokens _ hgood9) (lastNotSpace_joinTokens _ hgood9),
      collapseSpaces_joinTokens _ hgood9,
      List.filter_eq_self.mpr (joinTokens_wordOrSpace _ hgood9),
      replaceAll_joinTokens _ hgood9]
    apply congrArg String.mk
    apply congrArg joinTokens
    exact map_tokenMap_idem ts

/-- Witness for the amended claim C4 on a punctuation-free address. -/
theorem normalizeAddress_wordspace_idem_witness :
    normalizeAddress (normalizeAddress "Pune MH 411001") =
      normalizeAddress "Pune MH 411001" :=
  normalizeAddress_wordspace_idem "Pune MH 411001" (by decide)

end NextMaps
